import Mathlib

/-
Verification of the core matching logic of src/Data/measure.py:
the background subtractor comp_within and the consensus aggregator
compare_between.  Tables are modelled as lists of records carrying the two
columns the core reads (chromosome label and integer position); pandas
dataframe operations are translated operation by operation (filters,
order-preserving unique, keep-first drop_duplicates, sort by chromosome).
-/

/-- A variant-call record: the chromosome label and the integer position,
the two columns the core logic reads from each table row. -/
structure Record where
  chrom : String
  pos : Int
  deriving DecidableEq

/-- Keep-first duplicate removal, written with an accumulator of
already-seen elements; models pandas drop_duplicates (and pandas unique on
the chromosome column), both of which keep the first occurrence. -/
def pdDedupAux {α : Type} [DecidableEq α] (seen : List α) : List α → List α
  | [] => []
  | a :: l => if a ∈ seen then pdDedupAux seen l else a :: pdDedupAux (a :: seen) l

/-- Duplicate removal keeping first occurrences. -/
def pdDedup {α : Type} [DecidableEq α] (l : List α) : List α :=
  pdDedupAux [] l

/-- Chromosome labels of a table in order of first appearance, as produced
by the unique() call on the chromosome column. -/
def uniqueChroms (df : List Record) : List String :=
  pdDedup (df.map (fun r => r.chrom))

/-- Indices produced by Python range(0, n, step) for a positive step:
every index below n divisible by step. -/
def stepIndices (n step : Nat) : List Nat :=
  (List.range n).filter (fun i => i % step == 0)

/-- Python range(0, n, dist) for an arbitrary integer dist: a zero step
raises ValueError (modelled as none), a negative step gives an empty
range, a positive step gives the stepped indices. -/
def pyRangeStep (n : Nat) (dist : Int) : Option (List Nat) :=
  if dist = 0 then none
  else if dist < 0 then some []
  else some (stepIndices n dist.toNat)

/-- Linear scan of the control subset for one sampled treatment row,
mirroring the inner while loop of comp_within: returns the list of control
rows actually examined (first-match semantics stop the scan) and whether a
match within dist was found. -/
def scanControl (t : Record) (d : Int) : List Record → List Record × Bool
  | [] => ([], false)
  | c :: rest =>
    if t.pos - d ≤ c.pos ∧ c.pos ≤ t.pos + d then ([c], true)
    else
      let p := scanControl t d rest
      (c :: p.1, p.2)

/-- Row indices appended to indices_to_drop during one chromosome
iteration: the sampled indices whose row position matches some control
position within dist. -/
def chromDrops (mutant ctrl : List Record) (d : Int) (idxs : List Nat) : List Nat :=
  idxs.filter (fun i =>
    match mutant.get? i with
    | some t => (scanControl t d ctrl).2
    | none => false)

/-- comp_within from src/Data/measure.py.  For each chromosome appearing
in the mutant table, the control table is filtered to that chromosome and
the mutant table is sampled at every dist-th row index — range(0, n, dist)
over the whole mutant table, not only the rows of the current chromosome;
a sampled row is recorded in indices_to_drop when some control position
lies within dist of it.  The function returns the drop-list bookkeeping
together with the mutant table, which is returned unmodified; none models
the ValueError Python raises for a zero step, reached exactly when the
chromosome loop has at least one iteration. -/
def comp_within (mutant control : List Record) (dist : Int) :
    Option (List Nat × List Record) :=
  match pyRangeStep mutant.length dist with
  | none => if uniqueChroms mutant = [] then some ([], mutant) else none
  | some idxs =>
    some ((uniqueChroms mutant).flatMap (fun chrom =>
      chromDrops mutant (control.filter (fun c => c.chrom == chrom)) dist idxs),
      mutant)

/-- Control rows examined by the inner while loop for one sampled row: all
rows up to and including the first match.  This is the first component of
scanControl. -/
def scanCompares (t : Record) (d : Int) : List Record → List Record
  | [] => []
  | c :: rest =>
    if t.pos - d ≤ c.pos ∧ c.pos ≤ t.pos + d then [c]
    else c :: scanCompares t d rest

/-- Every position comparison performed while comp_within builds its drop
list, as a triple of the chromosome currently iterated, the sampled mutant
row and the control row compared against it. -/
def compWithinCompares (mutant control : List Record) (dist : Int) :
    List (String × Record × Record) :=
  match pyRangeStep mutant.length dist with
  | none => []
  | some idxs =>
    (uniqueChroms mutant).flatMap (fun chrom =>
      idxs.flatMap (fun i =>
        match mutant.get? i with
        | some t =>
          (scanCompares t dist (control.filter (fun c => c.chrom == chrom))).map
            (fun c => (chrom, t, c))
        | none => []))

/-- A method call-set map: method names with their call-sets, in dict
insertion order (Python dict keys are unique and ordered). -/
abbrev Methods : Type := List (String × List Record)

/-- Records of one method lying within distance of the leader record: the
chromosome-equality filter followed by the position-window filter, exactly
as in the inner loop of compare_between (the astype(int) cast is the identity
here because positions are modelled as integers). -/
def methodMatches (d : Int) (r : Record) (calls : List Record) : List Record :=
  (calls.filter (fun x => x.chrom == r.chrom)).filter
    (fun x => decide (r.pos - d ≤ x.pos) && decide (x.pos ≤ r.pos + d))

/-- A method column of a consensus row: the -1 sentinel when the method
has no record in the window, otherwise the tuple of all matching
positions. -/
inductive Cell where
  | sentinel : Cell
  | tup : List Int → Cell
  deriving DecidableEq

/-- The cell stored in the column of one method for one leader record. -/
def methodCell (d : Int) (r : Record) (calls : List Record) : Cell :=
  if methodMatches d r calls = [] then Cell.sentinel
  else Cell.tup ((methodMatches d r calls).map (fun x => x.pos))

/-- The contribution of one method to the average numerator: the sum of
its matched positions (zero when it has no match, matching the code where
a method with no match adds nothing). -/
def methodSum (d : Int) (r : Record) (calls : List Record) : Int :=
  ((methodMatches d r calls).map (fun x => x.pos)).sum

/-- The per-method columns of the candidate row built for one leader
record (slots 1..n of match_row). -/
def rowCells (methods : Methods) (d : Int) (r : Record) : List Cell :=
  methods.map (fun e => methodCell d r e.2)

/-- Accumulated average numerator for one leader record: the matched-position sum of each method is added once. -/
def sumPos (methods : Methods) (d : Int) (r : Record) : Int :=
  (methods.map (fun e => methodSum d r e.2)).sum

/-- The match counter for one leader record: the number of methods with at
least one record in the window. -/
def matchCount (methods : Methods) (d : Int) (r : Record) : Nat :=
  (methods.filter (fun e => !decide (methodMatches d r e.2 = []))).length

/-- A consensus row as appended to the consensus list: the chromosome
slot, the per-method columns and the average slot.  Rows are compared for
equality field by field, as pandas drop_duplicates compares them. -/
structure Row where
  chrom : String
  cols : List Cell
  avg : Int
  deriving DecidableEq

/-- Candidate evaluation of one leader record: the row is emitted iff the
match counter reaches agreement, and the stored average is the truncated
quotient of the accumulated numerator by the counter (exact integer
truncation models Python int(average) after division; a zero counter,
possible only with non-positive agreement and negative distance where
Python would raise ZeroDivisionError, is modelled as division by zero). -/
def rowFor (methods : Methods) (d agreement : Int) (r : Record) : Option Row :=
  if agreement ≤ (matchCount methods d r : Int) then
    some ⟨r.chrom, rowCells methods d r,
      Int.tdiv (sumPos methods d r) (matchCount methods d r : Int)⟩
  else none

/-- Pre-deduplication consensus list: one candidate evaluation per leader
record of every method, in method order then call-set order.  The
candidate row depends only on the leader record, not on which method it
was drawn from. -/
def consensusRows (methods : Methods) (d agreement : Int) : List Row :=
  methods.flatMap (fun e => e.2.filterMap (fun r => rowFor methods d agreement r))

/-- Stable sort of the consensus rows by chromosome label ascending, for
the final sort_values on the chromosome column. -/
def sortByChrom (rows : List Row) : List Row :=
  List.insertionSort (fun a b => a.chrom ≤ b.chrom) rows

/-- compare_between from src/Data/measure.py: the output column layout
(chromosome, one column per method in mapping order, average) together
with the consensus rows after exact-duplicate removal and the chromosome
sort. -/
def compare_between (methods : Methods) (distance agreement : Int) :
    List String × List Row :=
  (["CHROM"] ++ methods.map Prod.fst ++ ["AVERAGE"],
   sortByChrom (pdDedup (consensusRows methods distance agreement)))

/-- Sum of the positions stored in a cell (zero for the sentinel). -/
def cellSum : Cell → Int
  | Cell.sentinel => 0
  | Cell.tup ps => ps.sum

/-- Whether a cell records a match. -/
def isMatch : Cell → Bool
  | Cell.sentinel => false
  | Cell.tup _ => true

/-- Sum of all positions stored in the method-column tuples of a row. -/
def rowSum (cols : List Cell) : Int := (cols.map cellSum).sum

/-- Number of method columns of a row holding a tuple. -/
def rowMatches (cols : List Cell) : Nat := (cols.filter isMatch).length

/-- Total number of records across the call-sets of all methods. -/
def totalRecords (methods : Methods) : Nat :=
  (methods.map (fun e => e.2.length)).sum

/-- Concrete records and call-sets used to exercise the definitions. -/
def rA : Record := ⟨"chr1", 100⟩

def rB : Record := ⟨"chr1", 105⟩

def methodsAB : Methods := [("A", [rA]), ("B", [rB])]

def rowAB : Row := ⟨"chr1", [Cell.tup [100], Cell.tup [105]], 102⟩

example : (compare_between methodsAB 10 2).2 = [rowAB] := by decide

example : comp_within [rA] [] 1 = some ([], [rA]) := by decide

example : comp_within [rA] [] 0 = none := by decide

example :
    compWithinCompares [⟨"chr1", 100⟩, ⟨"chr2", 200⟩] [⟨"chr1", 200⟩] 1 =
      [("chr1", ⟨"chr1", 100⟩, ⟨"chr1", 200⟩), ("chr1", ⟨"chr2", 200⟩, ⟨"chr1", 200⟩)] := by
  decide

/-- Membership in the keep-first dedup with accumulator. -/
theorem mem_pdDedupAux {α : Type} [DecidableEq α] (seen l : List α) (x : α) :
    x ∈ pdDedupAux seen l ↔ x ∈ l ∧ x ∉ seen := by
  induction l generalizing seen with
  | nil => simp [pdDedupAux]
  | cons a l ih =>
    by_cases h : a ∈ seen
    · rw [pdDedupAux, if_pos h, ih]
      simp only [List.mem_cons]
      constructor
      · rintro ⟨hx, hs⟩
        exact ⟨Or.inr hx, hs⟩
      · rintro ⟨hx | hx, hs⟩
        · subst hx
          exact absurd h hs
        · exact ⟨hx, hs⟩
    · rw [pdDedupAux, if_neg h]
      simp only [List.mem_cons, ih]
      by_cases hxa : x = a
      · subst hxa
        simp [h]
      · simp [hxa]

/-- The keep-first dedup has no duplicates. -/
theorem pdDedupAux_nodup {α : Type} [DecidableEq α] (seen l : List α) :
    (pdDedupAux seen l).Nodup := by
  induction l generalizing seen with
  | nil => simp [pdDedupAux]
  | cons a l ih =>
    by_cases h : a ∈ seen
    · rw [pdDedupAux, if_pos h]
      exact ih seen
    · rw [pdDedupAux, if_neg h]
      refine List.Nodup.cons ?_ (ih (a :: seen))
      intro hmem
      exact ((mem_pdDedupAux (a :: seen) l a).1 hmem).2 (List.mem_cons_self a seen)

/-- Membership through pdDedup. -/
theorem mem_pdDedup {α : Type} [DecidableEq α] (l : List α) (x : α) :
    x ∈ pdDedup l ↔ x ∈ l := by
  simp [pdDedup, mem_pdDedupAux]

/-- Length of the dedup output is the number of distinct elements. -/
theorem length_pdDedup_eq_card {α : Type} [DecidableEq α] (l : List α) :
    (pdDedup l).length = l.toFinset.card := by
  have hnd : (pdDedup l).Nodup := pdDedupAux_nodup [] l
  have hts : (pdDedup l).toFinset = l.toFinset := by
    ext x
    simp [List.mem_toFinset, mem_pdDedup]
  rw [← hts]
  exact (List.toFinset_card_of_nodup hnd).symm

/-- Deduplicating a sublist yields at most as many rows. -/
theorem pdDedup_length_mono {α : Type} [DecidableEq α] {S L : List α} (h : List.Sublist S L) :
    (pdDedup S).length ≤ (pdDedup L).length := by
  rw [length_pdDedup_eq_card, length_pdDedup_eq_card]
  refine Finset.card_le_card ?_
  intro x hx
  rw [List.mem_toFinset] at hx ⊢
  exact h.subset hx

/-- The chromosome sort and the duplicate removal do not change which rows
appear in the output. -/
theorem mem_compare_between {methods : Methods} {d a : Int} {row : Row} :
    row ∈ (compare_between methods d a).2 ↔ row ∈ consensusRows methods d a := by
  unfold compare_between sortByChrom
  rw [(List.perm_insertionSort _ _).mem_iff, mem_pdDedup]

/-- Every consensus row comes from some leader record of some method. -/
theorem mem_consensusRows {methods : Methods} {d a : Int} {row : Row}
    (h : row ∈ consensusRows methods d a) :
    ∃ e ∈ methods, ∃ r ∈ e.2, rowFor methods d a r = some row := by
  unfold consensusRows at h
  rw [List.mem_flatMap] at h
  obtain ⟨e, he, hr⟩ := h
  rw [List.mem_filterMap] at hr
  obtain ⟨r, hrmem, hrow⟩ := hr
  exact ⟨e, he, r, hrmem, hrow⟩

/-- Shape of an emitted candidate row. -/
theorem rowFor_eq_some {methods : Methods} {d a : Int} {r : Record} {row : Row}
    (h : rowFor methods d a r = some row) :
    row.chrom = r.chrom ∧ row.cols = rowCells methods d r ∧
      row.avg = Int.tdiv (sumPos methods d r) (matchCount methods d r : Int) ∧
      a ≤ (matchCount methods d r : Int) := by
  unfold rowFor at h
  split at h
  · cases h
    exact ⟨rfl, rfl, rfl, by assumption⟩
  · cases h

/-- A leader record always lies in the match list of its own method when the
distance is non-negative. -/
theorem self_mem_methodMatches {d : Int} {r : Record} {calls : List Record}
    (hd : 0 ≤ d) (hr : r ∈ calls) : r ∈ methodMatches d r calls := by
  unfold methodMatches
  refine List.mem_filter.2 ⟨List.mem_filter.2 ⟨hr, ?_⟩, ?_⟩
  · simp
  · simp only [Bool.and_eq_true, decide_eq_true_eq]
    omega

/-- What membership in the match list of a method gives. -/
theorem mem_methodMatches {d : Int} {r x : Record} {calls : List Record}
    (h : x ∈ methodMatches d r calls) :
    x ∈ calls ∧ x.chrom = r.chrom ∧ r.pos - d ≤ x.pos ∧ x.pos ≤ r.pos + d := by
  unfold methodMatches at h
  have h1 := List.mem_filter.1 h
  have h2 := List.mem_filter.1 h1.1
  refine ⟨h2.1, ?_, ?_, ?_⟩
  · have := h2.2
    simpa using this
  · have := h1.2
    simp only [Bool.and_eq_true, decide_eq_true_eq] at this
    exact this.1
  · have := h1.2
    simp only [Bool.and_eq_true, decide_eq_true_eq] at this
    exact this.2

/-- The cell stored for a method sums to the numerator
contribution of that method. -/
theorem cellSum_methodCell (d : Int) (r : Record) (calls : List Record) :
    cellSum (methodCell d r calls) = methodSum d r calls := by
  unfold methodCell
  split
  · rename_i h
    simp [cellSum, methodSum, h]
  · rfl

/-- A method column records a match exactly when the match list is
non-empty. -/
theorem isMatch_methodCell (d : Int) (r : Record) (calls : List Record) :
    isMatch (methodCell d r calls) = !decide (methodMatches d r calls = []) := by
  unfold methodCell
  split
  · rename_i h
    simp [isMatch, h]
  · rename_i h
    simp [isMatch, h]

/-- The tuple sums visible in a candidate row add up to the accumulated
average numerator. -/
theorem rowSum_rowCells (methods : Methods) (d : Int) (r : Record) :
    rowSum (rowCells methods d r) = sumPos methods d r := by
  unfold rowSum rowCells sumPos
  induction methods with
  | nil => rfl
  | cons e ms ih =>
    simp only [List.map_cons, List.sum_cons, cellSum_methodCell]
    rw [ih]

/-- The number of tuple columns visible in a candidate row equals the
match counter. -/
theorem rowMatches_rowCells (methods : Methods) (d : Int) (r : Record) :
    rowMatches (rowCells methods d r) = matchCount methods d r := by
  unfold rowMatches rowCells matchCount
  induction methods with
  | nil => rfl
  | cons e ms ih =>
    simp only [List.map_cons, List.filter_cons]
    rw [isMatch_methodCell]
    by_cases h : methodMatches d r e.2 = []
    · simpa [h] using ih
    · simpa [h] using congrArg Nat.succ ih

/-- A method with a non-empty match list forces a positive match
counter. -/
theorem one_le_matchCount {methods : Methods} {d : Int} {r : Record}
    {e : String × List Record} (he : e ∈ methods)
    (hne : methodMatches d r e.2 ≠ []) : 1 ≤ matchCount methods d r := by
  unfold matchCount
  have hmem : e ∈ methods.filter (fun e => !decide (methodMatches d r e.2 = [])) :=
    List.mem_filter.2 ⟨he, by simp [hne]⟩
  exact List.length_pos.2 (List.ne_nil_of_mem hmem)

/-- C1: for every treatment call-set, control call-set and tolerance,
comp_within returns the treatment call-set exactly as given, rows and
order untouched; matches only go into the drop-list bookkeeping. -/
theorem comp_within_returns_treatment_unchanged
    (mutant control : List Record) (dist : Int) (res : List Nat × List Record)
    (h : comp_within mutant control dist = some res) : res.2 = mutant := by
  unfold comp_within at h
  split at h
  · split at h
    · injection h with h2
      exact (congrArg Prod.snd h2).symm
    · exact Option.noConfusion h
  · injection h with h2
    exact (congrArg Prod.snd h2).symm

/-- Witness for C1: a singleton treatment set with empty control and
tolerance one is returned unchanged. -/
theorem comp_within_returns_treatment_unchanged_witness :
    ((([], [rA]) : List Nat × List Record)).2 = [rA] :=
  comp_within_returns_treatment_unchanged [rA] [] 1 ([], [rA]) (by decide)

/-- C2: in every retained consensus row of the compare_between output, the
average slot holds the sum of all positions across the method tuples of
the row divided by the match counter, truncated to an integer. -/
theorem compare_between_average_correct
    (methods : Methods) (d a : Int) (row : Row)
    (h : row ∈ (compare_between methods d a).2) :
    row.avg = Int.tdiv (rowSum row.cols) (rowMatches row.cols : Int) := by
  obtain ⟨e, he, r, hrm, hrow⟩ := mem_consensusRows (mem_compare_between.1 h)
  obtain ⟨hc, hcols, havg, hcount⟩ := rowFor_eq_some hrow
  rw [havg, hcols, rowSum_rowCells, rowMatches_rowCells]

/-- Witness for C2 on a two-method input whose single output row averages
100 and 105 to 102. -/
theorem compare_between_average_correct_witness :
    rowAB.avg = Int.tdiv (rowSum rowAB.cols) (rowMatches rowAB.cols : Int) :=
  compare_between_average_correct methodsAB 10 2 rowAB (by decide)

/-- A filterMap that never drops keeps the length. -/
theorem length_filterMap_of_isSome {α β : Type} (f : α → Option β) (l : List α)
    (h : ∀ x ∈ l, (f x).isSome) : (l.filterMap f).length = l.length := by
  induction l with
  | nil => rfl
  | cons a l ih =>
    rw [List.filterMap_cons]
    cases hf : f a with
    | none =>
      have hs := h a (List.mem_cons_self a l)
      rw [hf] at hs
      simp at hs
    | some b =>
      simp [ih (fun x hx => h x (List.mem_cons_of_mem a hx))]

/-- C3: with agreement 1 and the non-negative distance the spec
guarantees, every leader record of every method has a positive match
counter (it matches itself) and yields a retained row, so the
pre-deduplication consensus list has exactly one row per record. -/
theorem consensus_agreement_one_keeps_every_record
    (methods : Methods) (d : Int) (hd : 0 ≤ d) :
    (∀ e ∈ methods, ∀ r ∈ e.2,
        1 ≤ matchCount methods d r ∧ (rowFor methods d 1 r).isSome) ∧
      (consensusRows methods d 1).length = totalRecords methods := by
  have key : ∀ e ∈ methods, ∀ r ∈ e.2, 1 ≤ matchCount methods d r := by
    intro e he r hrm
    have hself : r ∈ methodMatches d r e.2 := self_mem_methodMatches hd hrm
    exact one_le_matchCount he (List.ne_nil_of_mem hself)
  have key2 : ∀ e ∈ methods, ∀ r ∈ e.2, (rowFor methods d 1 r).isSome := by
    intro e he r hrm
    unfold rowFor
    rw [if_pos (by exact_mod_cast key e he r hrm)]
    rfl
  refine ⟨fun e he r hrm => ⟨key e he r hrm, key2 e he r hrm⟩, ?_⟩
  unfold consensusRows totalRecords
  rw [List.length_flatMap]
  congr 1
  apply List.map_congr_left
  intro e he
  exact length_filterMap_of_isSome _ _ (fun r hr => key2 e he r hr)

/-- Witness for C3: at agreement 1 the two-method example keeps one row
per record. -/
theorem consensus_agreement_one_keeps_every_record_witness :
    (consensusRows methodsAB 10 1).length = totalRecords methodsAB :=
  (consensus_agreement_one_keeps_every_record methodsAB 10 (by decide)).2

/-- A candidate row emitted at a higher agreement is emitted, identically,
at any lower agreement. -/
theorem rowFor_mono_agreement {methods : Methods} {d a1 a2 : Int} {r : Record}
    {row : Row} (hle : a1 ≤ a2) (h : rowFor methods d a2 r = some row) :
    rowFor methods d a1 r = some row := by
  unfold rowFor at h ⊢
  split at h
  · rename_i hc
    rw [if_pos (le_trans hle hc)]
    exact h
  · exact Option.noConfusion h

/-- A filterMap with a pointwise-less-defined function gives a sublist. -/
theorem filterMap_sublist_of_imp {α β : Type} (f g : α → Option β) (l : List α)
    (h : ∀ x y, f x = some y → g x = some y) :
    List.Sublist (l.filterMap f) (l.filterMap g) := by
  induction l with
  | nil => simp
  | cons a l ih =>
    rw [List.filterMap_cons, List.filterMap_cons]
    cases hf : f a with
    | none =>
      cases hg : g a with
      | none => exact ih
      | some b => exact List.Sublist.cons b ih
    | some b =>
      rw [h a b hf]
      exact List.Sublist.cons₂ b ih

/-- Joining pointwise sublists of candidate evaluations gives a sublist. -/
theorem flatMap_filterMap_sublist (outer : Methods) (f g : Record → Option Row)
    (h : ∀ x y, f x = some y → g x = some y) :
    List.Sublist (outer.flatMap (fun e => e.2.filterMap f))
      (outer.flatMap (fun e => e.2.filterMap g)) := by
  induction outer with
  | nil => simp
  | cons e ms ih =>
    rw [List.flatMap_cons, List.flatMap_cons]
    exact List.Sublist.append (filterMap_sublist_of_imp f g e.2 h) ih

/-- C5: with the input mapping and distance fixed, raising the agreement
threshold never increases the number of rows of the final output, after
duplicate removal and the chromosome sort. -/
theorem compare_between_monotone_in_agreement
    (methods : Methods) (d a1 a2 : Int) (hle : a1 ≤ a2) :
    ((compare_between methods d a2).2).length ≤
      ((compare_between methods d a1).2).length := by
  unfold compare_between sortByChrom
  rw [List.Perm.length_eq (List.perm_insertionSort _ _),
    List.Perm.length_eq (List.perm_insertionSort _ _)]
  refine pdDedup_length_mono ?_
  unfold consensusRows
  exact flatMap_filterMap_sublist methods _ _
    (fun r row hrow => rowFor_mono_agreement hle hrow)

/-- Witness for C5: agreement 2 keeps at most as many rows as agreement 1
on the two-method example. -/
theorem compare_between_monotone_in_agreement_witness :
    ((compare_between methodsAB 10 2).2).length ≤
      ((compare_between methodsAB 10 1).2).length :=
  compare_between_monotone_in_agreement methodsAB 10 1 2 (by decide)

/-- Widening the window preserves membership in the match list of a method. -/
theorem methodMatches_mono_subset {d1 d2 : Int} (h : d1 ≤ d2) {r x : Record}
    {calls : List Record} (hx : x ∈ methodMatches d1 r calls) :
    x ∈ methodMatches d2 r calls := by
  obtain ⟨hc, hch, h1, h2⟩ := mem_methodMatches hx
  unfold methodMatches
  refine List.mem_filter.2 ⟨List.mem_filter.2 ⟨hc, by simp [hch]⟩, ?_⟩
  simp only [Bool.and_eq_true, decide_eq_true_eq]
  omega

/-- C6: with the mapping and agreement fixed, increasing the distance
never decreases the match counter computed for any leader record. -/
theorem matchCount_monotone_in_distance
    (methods : Methods) (r : Record) (d1 d2 : Int) (h : d1 ≤ d2) :
    matchCount methods d1 r ≤ matchCount methods d2 r := by
  unfold matchCount
  induction methods with
  | nil => exact le_refl _
  | cons e ms ih =>
    simp only [List.filter_cons]
    by_cases h1 : methodMatches d1 r e.2 = []
    · by_cases hw : methodMatches d2 r e.2 = []
      · simpa [h1, hw] using ih
      · simp only [h1, hw, decide_True, decide_False, Bool.not_true, Bool.not_false,
          if_false, if_true, List.length_cons]
        exact le_trans ih (Nat.le_succ _)
    · have hw : methodMatches d2 r e.2 ≠ [] := by
        obtain ⟨x, hx⟩ := List.exists_mem_of_ne_nil _ h1
        exact List.ne_nil_of_mem (methodMatches_mono_subset h hx)
      simp only [h1, hw, decide_True, decide_False, Bool.not_true, Bool.not_false,
        if_false, if_true, List.length_cons]
      exact Nat.succ_le_succ ih

/-- Witness for C6: widening the window from 1 to 10 does not lose the
match of the leader with itself. -/
theorem matchCount_monotone_in_distance_witness :
    matchCount methodsAB 1 rA ≤ matchCount methodsAB 10 rA :=
  matchCount_monotone_in_distance methodsAB rA 1 10 (by decide)

/-- C7: when one method has two or more records inside the window of the
leader, its column stores the tuple of all those positions, the average
numerator gains their sum exactly once, and the match counter rises by
exactly one compared to the same mapping without that method. -/
theorem multi_match_counts_once
    (pre post : Methods) (nm : String) (calls : List Record) (d : Int)
    (r : Record) (h2 : 2 ≤ (methodMatches d r calls).length) :
    (rowCells (pre ++ (nm, calls) :: post) d r).get? pre.length =
        some (Cell.tup ((methodMatches d r calls).map (fun x => x.pos))) ∧
      sumPos (pre ++ (nm, calls) :: post) d r =
        sumPos (pre ++ post) d r + methodSum d r calls ∧
      matchCount (pre ++ (nm, calls) :: post) d r =
        matchCount (pre ++ post) d r + 1 := by
  have hne : methodMatches d r calls ≠ [] := by
    intro hnil
    rw [hnil] at h2
    simp at h2
  refine ⟨?_, ?_, ?_⟩
  · unfold rowCells
    rw [List.map_append, List.map_cons,
      List.get?_append_right (by simp)]
    simp [methodCell, hne]
  · unfold sumPos
    rw [List.map_append, List.map_cons, List.sum_append, List.sum_cons,
      List.map_append, List.sum_append]
    ring
  · unfold matchCount
    rw [List.filter_append, List.filter_cons, List.filter_append]
    simp only [hne, decide_False, Bool.not_false, if_true]
    rw [List.length_append, List.length_append, List.length_cons]
    omega

/-- Concrete records for a two-records-in-window witness. -/
def rC2 : Record := ⟨"chr1", 102⟩

def rC3 : Record := ⟨"chr1", 104⟩

/-- Witness for C7: method B has two records within 10 of the leader at
100; its column holds both, the sum is added once, the counter rises by
one. -/
theorem multi_match_counts_once_witness :
    (rowCells ([("A", [rA])] ++ ("B", [rC2, rC3]) :: []) 10 rA).get?
        (List.length ([("A", [rA])] : Methods)) =
        some (Cell.tup ((methodMatches 10 rA [rC2, rC3]).map (fun x => x.pos))) ∧
      sumPos ([("A", [rA])] ++ ("B", [rC2, rC3]) :: []) 10 rA =
        sumPos ([("A", [rA])] ++ []) 10 rA + methodSum 10 rA [rC2, rC3] ∧
      matchCount ([("A", [rA])] ++ ("B", [rC2, rC3]) :: []) 10 rA =
        matchCount ([("A", [rA])] ++ []) 10 rA + 1 :=
  multi_match_counts_once [("A", [rA])] [] "B" [rC2, rC3] 10 rA (by decide)

/-- C9: an empty methods mapping yields the two fixed columns and no rows;
the embedding is total, so no error arises. -/
theorem compare_between_empty_methods (d a : Int) :
    compare_between [] d a = (["CHROM", "AVERAGE"], []) := rfl

/-- C10: with the non-negative distance the spec guarantees, the column
belonging to the own method of the leader record is never the sentinel:
for every method at column index j and every record r of its call-set
whose candidate row is emitted, column j of that row holds a non-empty
tuple containing the position of r; and every retained row of the final
output arises from such an emitting leader. -/
theorem leader_column_never_sentinel
    (methods : Methods) (d a : Int) (hd : 0 ≤ d) :
    (∀ row ∈ (compare_between methods d a).2,
        ∃ j e r, methods.get? j = some e ∧ r ∈ e.2 ∧
          rowFor methods d a r = some row ∧
          ∃ ps, row.cols.get? j = some (Cell.tup ps) ∧ ps ≠ [] ∧ r.pos ∈ ps) ∧
      (∀ (j : Nat) (e : String × List Record) (r : Record) (row : Row),
        methods.get? j = some e → r ∈ e.2 → rowFor methods d a r = some row →
        ∃ ps, row.cols.get? j = some (Cell.tup ps) ∧ ps ≠ [] ∧ r.pos ∈ ps) := by
  have key : ∀ (j : Nat) (e : String × List Record) (r : Record) (row : Row),
      methods.get? j = some e → r ∈ e.2 → rowFor methods d a r = some row →
      ∃ ps, row.cols.get? j = some (Cell.tup ps) ∧ ps ≠ [] ∧ r.pos ∈ ps := by
    intro j e r row hj hr hrow
    obtain ⟨hc, hcols, havg, hcount⟩ := rowFor_eq_some hrow
    have hself : r ∈ methodMatches d r e.2 := self_mem_methodMatches hd hr
    have hne : methodMatches d r e.2 ≠ [] := List.ne_nil_of_mem hself
    refine ⟨(methodMatches d r e.2).map (fun x => x.pos), ?_, ?_, ?_⟩
    · rw [hcols]
      unfold rowCells
      rw [List.get?_map, hj]
      simp [methodCell, hne]
    · simp [hne]
    · exact List.mem_map.2 ⟨r, hself, rfl⟩
  refine ⟨?_, key⟩
  intro row h
  obtain ⟨e, he, r, hrm, hrow⟩ := mem_consensusRows (mem_compare_between.1 h)
  obtain ⟨j, hj⟩ := List.get_of_mem he
  have hget : methods.get? j.1 = some e := by
    rw [List.get?_eq_get j.2, hj]
  exact ⟨j.1, e, r, hget, hrm, hrow, key j.1 e r row hget hrm hrow⟩

/-- Witness for C10: the leader rA of method A at column 0 emits the
single output row of the two-method example, and column 0 of that row is
a tuple containing the position of rA. -/
theorem leader_column_never_sentinel_witness :
    ∃ ps, rowAB.cols.get? 0 = some (Cell.tup ps) ∧ ps ≠ [] ∧ rA.pos ∈ ps :=
  (leader_column_never_sentinel methodsAB 10 2 (by decide)).2 0 ("A", [rA]) rA
    rowAB (by decide) (by decide) (by decide)

/-- Concrete tables on two chromosomes for the C4 counterexample. -/
def mutantX : List Record := [⟨"chr1", 100⟩, ⟨"chr2", 200⟩]

def controlX : List Record := [⟨"chr1", 200⟩]

/-- Counterexample to C4 as stated: with tolerance 1, while iterating the
chromosome chr1 drawn from the treatment table, comp_within compares the
sampled treatment record on chr2 against a control record on chr1, so not
every drop-list comparison pairs positions on the same chromosome. -/
theorem comp_within_compares_across_chromosomes :
    (("chr1", (⟨"chr2", 200⟩ : Record), (⟨"chr1", 200⟩ : Record)) ∈
        compWithinCompares mutantX controlX 1) ∧
      (⟨"chr2", 200⟩ : Record).chrom ≠ (⟨"chr1", 200⟩ : Record).chrom := by
  decide

/-- Rows examined by the scan are control rows of the scanned subset. -/
theorem mem_scanCompares {t : Record} {d : Int} {c : Record}
    {ctrl : List Record} (h : c ∈ scanCompares t d ctrl) : c ∈ ctrl := by
  induction ctrl with
  | nil => simpa [scanCompares] using h
  | cons c0 rest ih =>
    unfold scanCompares at h
    split at h
    · simp only [List.mem_singleton] at h
      subst h
      exact List.mem_cons_self _ _
    · rcases List.mem_cons.1 h with h | h
      · subst h
        exact List.mem_cons_self _ _
      · exact List.mem_cons_of_mem c0 (ih h)

/-- C4 amended: in compare_between every tuple position of a retained row
comes from a record of that column of methods on the own chromosome of the row;
in comp_within the control side of every drop-list comparison lies on the
chromosome currently iterated, but the sampled treatment row itself need
not lie on it, so treatment and control chromosomes can differ (see the
counterexample). -/
theorem chromosome_isolation_amended :
    (∀ (methods : Methods) (d a : Int) (row : Row),
        row ∈ (compare_between methods d a).2 →
        ∀ (j : Nat) (ps : List Int), row.cols.get? j = some (Cell.tup ps) →
        ∀ p ∈ ps, ∃ e x, methods.get? j = some e ∧ x ∈ e.2 ∧
          x.pos = p ∧ x.chrom = row.chrom) ∧
      (∀ (mutant control : List Record) (dist : Int)
          (ev : String × Record × Record),
        ev ∈ compWithinCompares mutant control dist → ev.2.2.chrom = ev.1) := by
  constructor
  · intro methods d a row h j ps hcell p hp
    obtain ⟨e0, he0, r, hrm, hrow⟩ := mem_consensusRows (mem_compare_between.1 h)
    obtain ⟨hc, hcols, havg, hcount⟩ := rowFor_eq_some hrow
    rw [hcols] at hcell
    unfold rowCells at hcell
    rw [List.get?_map] at hcell
    cases hg : methods.get? j with
    | none =>
      rw [hg] at hcell
      exact Option.noConfusion hcell
    | some e =>
      rw [hg] at hcell
      injection hcell with hcell
      refine ⟨e, ?_⟩
      simp only [methodCell] at hcell
      split at hcell
      · exact Cell.noConfusion hcell
      · injection hcell with hps
        rw [← hps] at hp
        obtain ⟨x, hxm, hxp⟩ := List.mem_map.1 hp
        obtain ⟨hxc, hxch, _, _⟩ := mem_methodMatches hxm
        exact ⟨x, rfl, hxc, hxp, by rw [hxch, hc]⟩
  · intro mutant control dist ev hev
    unfold compWithinCompares at hev
    split at hev
    · exact absurd hev (List.not_mem_nil ev)
    · obtain ⟨chrom, hchrom, hev⟩ := List.mem_flatMap.1 hev
      obtain ⟨i, hi, hev⟩ := List.mem_flatMap.1 hev
      cases hg : mutant.get? i with
      | none =>
        rw [hg] at hev
        exact absurd hev (List.not_mem_nil ev)
      | some t =>
        rw [hg] at hev
        obtain ⟨c, hcm, hevc⟩ := List.mem_map.1 hev
        have hcc : c.chrom == chrom := (List.mem_filter.1 (mem_scanCompares hcm)).2
        rw [← hevc]
        simpa using hcc

/-- Witness for the amended C4: the tuple position 100 of the example
output row is traced to the record of method A on the row chromosome. -/
theorem chromosome_isolation_amended_witness :
    ∃ e x, methodsAB.get? 0 = some e ∧ x ∈ e.2 ∧
      x.pos = 100 ∧ x.chrom = rowAB.chrom :=
  chromosome_isolation_amended.1 methodsAB 10 2 rowAB (by decide) 0 [100]
    (by decide) 100 (by decide)

/-- Counterexample to C8 as stated: at tolerance 0, with a non-empty
treatment set, the step of range(0, n, 0) is zero and Python raises
ValueError, so the run does not complete even though the control set is
empty. -/
theorem comp_within_zero_tolerance_raises :
    comp_within [rA] [] 0 = none := by decide

/-- Scanning an empty control subset records no drop for any sampled
index. -/
theorem chromDrops_nil_ctrl (mutant : List Record) (d : Int)
    (idxs : List Nat) : chromDrops mutant [] d idxs = [] := by
  unfold chromDrops
  apply List.filter_eq_nil.2
  intro i _
  cases hg : mutant.get? i with
  | none => simp
  | some t => simp [scanControl]

/-- C8 amended: comp_within completes without error whenever the
tolerance is at least one or the treatment set is empty (at tolerance 0
with a non-empty treatment set the range step is zero and Python raises);
the result carries the unchanged treatment set, an empty control set
yields an empty drop list, and an empty treatment set yields an empty
scan. -/
theorem comp_within_no_error_amended
    (mutant control : List Record) (dist : Int)
    (h : 1 ≤ dist ∨ mutant = []) :
    ∃ drops, comp_within mutant control dist = some (drops, mutant) ∧
      (control = [] → drops = []) ∧ (mutant = [] → drops = []) := by
  rcases h with h | h
  · have h0 : pyRangeStep mutant.length dist =
        some (stepIndices mutant.length dist.toNat) := by
      unfold pyRangeStep
      rw [if_neg (by omega), if_neg (by simp; omega)]
    refine ⟨(uniqueChroms mutant).flatMap (fun chrom =>
      chromDrops mutant (control.filter (fun c => c.chrom == chrom)) dist
        (stepIndices mutant.length dist.toNat)), ?_, ?_, ?_⟩
    · unfold comp_within
      rw [h0]
    · intro hc
      subst hc
      refine List.flatMap_eq_nil_iff.2 ?_
      intro chrom _
      rw [List.filter_nil]
      exact chromDrops_nil_ctrl mutant dist _
    · intro hm
      subst hm
      simp [uniqueChroms, pdDedup, pdDedupAux]
  · subst h
    refine ⟨[], ?_, fun _ => rfl, fun _ => rfl⟩
    unfold comp_within
    split
    · simp [uniqueChroms, pdDedup, pdDedupAux]
    · simp [uniqueChroms, pdDedup, pdDedupAux]

/-- Witness for the amended C8: tolerance one with empty control gives an
empty drop list and the unchanged treatment set. -/
theorem comp_within_no_error_amended_witness :
    ∃ drops, comp_within [rA] [] 1 = some (drops, [rA]) ∧
      (([] : List Record) = [] → drops = []) ∧ ([rA] = [] → drops = []) :=
  comp_within_no_error_amended [rA] [] 1 (Or.inl (by decide))
